import Mathlib

/-!
Verification of the ornithology data-acquisition pipeline.

Shallow embedding of the Rust source (src/archive.rs, src/api.rs,
src/api/oauth.rs) into Lean 4, together with theorems settling the
specification claims about the extractor, the OAuth negotiation, the
rate-aware retry policy and the paginated fetcher.
-/

namespace Ornithology

/-! ## Paginated fetcher: batch partitioning (src/api.rs, page_at_a_time!)

The macro iterates `for page in 0..`, computes `i = page * PAGE_SIZE`,
stops when `i >= n`, and pulls the next `PAGE_SIZE` identifiers from the
(exact-size) iterator. This is chunking of the input list into
consecutive groups of `PAGE_SIZE`. The page size in the source is the
literal 100; we keep it as a parameter `P` (the loop diverges only for
`P = 0`, a value the source never uses, for which we return `[]`). -/

def pageBatches (P : Nat) : List Nat → List (List Nat)
  | [] => []
  | a :: l =>
    if P = 0 then []
    else (a :: l).take P :: pageBatches P ((a :: l).drop P)
termination_by ids => ids.length
decreasing_by
  simp only [List.length_drop, List.length_cons]
  omega

/-- The page size fixed by the source (`$pagesize` literal in
`Client::tweets` and `Client::users`). -/
def PAGE_SIZE : Nat := 100

/-- Decimal digit bytes of a natural number, modelling Rust's
`Display for u64` as used by `write!(&mut idsstr, "{}", id)` (the UTF-8
bytes of the decimal representation). -/
def decBytes (n : Nat) : List Nat :=
  if h : n < 10 then [48 + n]
  else decBytes (n / 10) ++ [48 + n % 10]
termination_by n
decreasing_by
  have : 10 ≤ n := Nat.le_of_not_lt h
  omega

/-- One step of the serialization loop body:
`if idsstr.is_empty() { write!("{}", id) } else { write!(",{}", id) }`;
44 is the comma byte. -/
def serStep (s : List Nat) (id : Nat) : List Nat :=
  if s.isEmpty then decBytes id else s ++ 44 :: decBytes id

/-- The comma-joining loop of `page_at_a_time!`: fold the batch through
`serStep` starting from the empty string. -/
def serializeBatch (ids : List Nat) : List Nat :=
  ids.foldl serStep []

/-! ## Bulk array extractor (src/archive.rs, mod serde_json_array_iter)

Bytes are modelled as `Nat` (values 0..255 in practice; the functions are
total). The element decoder handed to `deserialize_single` (serde_json's
`StreamDeserializer::next`) is abstracted as a function from the byte
stream to an optional decoded value together with the unconsumed rest of
the stream. IO errors and serde errors, both surfaced as `io::Error` in
the source, are modelled by `ExtractErr`: `eof` is the
`UnexpectedEof`/`premature EOF` family, `invalidData` the
`ErrorKind::InvalidData` errors created by `invalid_data` (the spec's
`DataFormatError`), `decodeFail` a serde decode failure. -/

/-- `u8::is_ascii_whitespace`: space, tab, line feed, form feed,
carriage return. -/
def isWsByte (b : Nat) : Bool :=
  b = 0x20 || b = 0x09 || b = 0x0A || b = 0x0C || b = 0x0D

def LBRACK : Nat := 91
def RBRACK : Nat := 93
def COMMA : Nat := 44

inductive ExtractErr where
  | eof
  | invalidData (msg : String)
  | decodeFail
deriving DecidableEq, Repr

/-- `read_skipping_ws`: read bytes until the first non-whitespace byte,
returning it and the rest of the stream; EOF if the stream runs out. -/
def read_skipping_ws : List Nat → Except ExtractErr (Nat × List Nat)
  | [] => .error .eof
  | b :: rest => if isWsByte b then read_skipping_ws rest else .ok (b, rest)

/-- A decoder for elements of type `T`: from the front of the byte
stream, either a value and the unconsumed rest, or failure. -/
def Decoder (T : Type) : Type := List Nat → Option (T × List Nat)

/-- `deserialize_single`: run the element decoder once on the stream. -/
def deserialize_single {T : Type} (dec : Decoder T) (s : List Nat) :
    Except ExtractErr (T × List Nat) :=
  match dec s with
  | some (v, rest) => .ok (v, rest)
  | none => .error .decodeFail

/-- `yield_next_obj`: one step of the array iterator. The state is the
remaining stream plus the `at_start` flag (false before the opening `[`
has been consumed). Returns the decoded element (or `none` at the closing
bracket) and the new stream; the flag is true after any first call, which
the driver `runExtractor` accounts for. -/
def yield_next_obj {T : Type} (dec : Decoder T) (s : List Nat)
    (at_start : Bool) : Except ExtractErr (Option T × List Nat) :=
  if !at_start then
    match read_skipping_ws s with
    | .error e => .error e
    | .ok (b, rest) =>
      if b = LBRACK then
        match read_skipping_ws rest with
        | .error e => .error e
        | .ok (peek, rest2) =>
          if peek = RBRACK then .ok (none, rest2)
          else
            match deserialize_single dec (peek :: rest2) with
            | .error e => .error e
            | .ok (v, rest3) => .ok (some v, rest3)
      else .error (.invalidData "bracket not found")
  else
    match read_skipping_ws s with
    | .error e => .error e
    | .ok (b, rest) =>
      if b = COMMA then
        match deserialize_single dec rest with
        | .error e => .error e
        | .ok (v, rest2) => .ok (some v, rest2)
      else if b = RBRACK then .ok (none, rest)
      else .error (.invalidData "comma or bracket not found")

/-- The iterator of `iter_json_array`, driven to completion the way
`archive::parse` drives it (`filter_map ... collect::<Result<_>>` pulls
elements until `None` or the first error). `fuel` bounds the number of
pulls; it is a modelling artifact (each pull of the Rust iterator
consumes at least one byte), and every theorem supplies enough of it. -/
def runExtractor {T : Type} (dec : Decoder T) :
    Nat → List Nat → Bool → Except ExtractErr (List T)
  | 0, _, _ => .error .eof
  | fuel + 1, s, at_start =>
    match yield_next_obj dec s at_start with
    | .error e => .error e
    | .ok (none, _) => .ok []
    | .ok (some v, rest) =>
      match runExtractor dec fuel rest true with
      | .error e => .error e
      | .ok vs => .ok (v :: vs)

/-- `contents.find('[')` of `archive::parse`: index of the first `[`
byte, if any. -/
def findBracket (contents : List Nat) : Option Nat :=
  contents.findIdx? (fun b => b = LBRACK)

/-- The parsing part of `archive::parse` (after the zip entry has been
read into `contents`): slice from the first `[`, iterate the array,
apply the caller's filter-map step. A missing `[` is the
context-wrapped error `find [ indicating start of data`, a
`DataFormatError` per the spec's error table. -/
def parseContents {T FT : Type} (dec : Decoder T) (map : T → Option FT)
    (contents : List Nat) : Except ExtractErr (List FT) :=
  match findBracket contents with
  | none => .error (.invalidData "find bracket indicating start of data")
  | some i =>
    match runExtractor dec (contents.length + 1) (contents.drop i) false with
    | .error e => .error e
    | .ok vs => .ok (vs.filterMap map)

/-- A byte list consisting solely of ASCII whitespace. -/
def WsList (w : List Nat) : Prop := ∀ b ∈ w, isWsByte b

/-- A concrete element decoder used to exercise the extractor theorems
on closed inputs: skip leading whitespace, then decode one ASCII digit
byte as its numeric value. -/
def decDigit : List Nat → Option (Nat × List Nat)
  | [] => none
  | b :: rest =>
    if isWsByte b then decDigit rest
    else if 48 ≤ b && b ≤ 57 then some (b - 48, rest) else none

/-- Well-formedness of the stream after the first element has been
consumed: either whitespace then the closing `]` (trailing bytes
arbitrary), or whitespace, a `,`, and a stream on which the decoder
yields the next element. `dec` consuming a prefix of its input
(`rest'.length ≤ rest.length`) reflects that serde reads forward through
the stream. -/
inductive ArrayTail {T : Type} (dec : Decoder T) : List Nat → List T → Prop
  | done (w trailing : List Nat) (hw : WsList w) :
      ArrayTail dec (w ++ RBRACK :: trailing) []
  | more (w rest rest' : List Nat) (v : T) (vs : List T) (hw : WsList w)
      (hdec : dec rest = some (v, rest')) (hlen : rest'.length ≤ rest.length)
      (htail : ArrayTail dec rest' vs) :
      ArrayTail dec (w ++ COMMA :: rest) (v :: vs)

/-- A well-formed (unprefixed) array byte stream holding the values
`vs`: optional whitespace, `[`, then either whitespace and `]` (empty
array), or whitespace, a first element whose first byte is neither
whitespace nor `]` and which the decoder accepts, then an `ArrayTail`.
Trailing bytes after `]` are unconstrained. -/
inductive ArrayBytes {T : Type} (dec : Decoder T) : List Nat → List T → Prop
  | empty (w0 w1 trailing : List Nat) (hw0 : WsList w0) (hw1 : WsList w1) :
      ArrayBytes dec (w0 ++ LBRACK :: (w1 ++ RBRACK :: trailing)) []
  | nonempty (w0 w1 : List Nat) (b : Nat) (u rest : List Nat) (v : T)
      (vs : List T) (hw0 : WsList w0) (hw1 : WsList w1)
      (hb : ¬ isWsByte b) (hbr : b ≠ RBRACK)
      (hdec : dec (b :: u) = some (v, rest)) (hlen : rest.length ≤ u.length + 1)
      (htail : ArrayTail dec rest vs) :
      ArrayBytes dec (w0 ++ LBRACK :: (w1 ++ b :: u)) (v :: vs)

/-! ## Rate-aware request service (src/api.rs, TwitterRateLimitPolicy)

Time is modelled in integer milliseconds since the unix epoch (the
source works with `SystemTime`/`Duration`, whose sub-second precision is
what matters for the sleep threshold; `Duration::as_secs` truncates). A
transport outcome is `Except Unit Response`; the only response data the
policy inspects are the status code and the `x-rate-limit-reset` header,
kept as raw bytes as in `http::HeaderValue`. -/

structure Response where
  status : Nat
  xRateLimitReset : Option (List Nat)
deriving DecidableEq, Repr

/-- `HeaderValue::to_str`: succeeds iff every byte is visible ASCII
(32..126) or horizontal tab. Returns the same bytes viewed as a str. -/
def headerToStr (bs : List Nat) : Option (List Nat) :=
  if bs.all (fun b => (32 ≤ b && b < 127) || b = 9) then some bs else none

/-- `str::parse::<u64>`: optional leading `+`, then one or more ASCII
digits, rejecting values that overflow 64 bits. -/
def parseU64Bytes (s : List Nat) : Option Nat :=
  let digits := match s with
    | 43 :: rest => rest
    | _ => s
  if digits.isEmpty then none
  else if digits.all (fun b => 48 ≤ b && b ≤ 57) then
    let v := digits.foldl (fun acc b => acc * 10 + (b - 48)) 0
    if v < 2 ^ 64 then some v else none
  else none

/-- The observable decision of `TwitterRateLimitPolicy::retry` together
with the returned future's sleeping behaviour: no retry (`None`), a
panic in one of the three `expect` calls, or a retry that first sleeps
for `waitMs` milliseconds, or retries immediately. -/
inductive RetryDecision where
  | noRetry
  | panicked (msg : String)
  | retryAfterSleep (waitMs : Nat)
  | retryImmediate
deriving DecidableEq, Repr

/-- `TwitterRateLimitPolicy::retry`: transport errors and non-429
statuses are returned as-is (`None`); on 429 the `x-rate-limit-reset`
header is read (`expect`), converted to str (`expect`), parsed as u64
epoch seconds (`expect`); the future then sleeps for
`reset_instant - now` iff that duration is defined
(`SystemTime::duration_since` fails when the reset lies in the past) and
its whole-second count exceeds 1. -/
def retry (result : Except Unit Response) (nowMs : Nat) : RetryDecision :=
  match result with
  | .error _ => .noRetry
  | .ok r =>
    if r.status = 429 then
      match r.xRateLimitReset with
      | none => .panicked "Twitter promised"
      | some bs =>
        match headerToStr bs with
        | none => .panicked "x-rate-limit-reset as str"
        | some cs =>
          match parseU64Bytes cs with
          | none => .panicked "x-rate-limit-reset is a number"
          | some reset =>
            if nowMs ≤ reset * 1000 && (reset * 1000 - nowMs) / 1000 > 1
            then .retryAfterSleep (reset * 1000 - nowMs)
            else .retryImmediate
    else .noRetry

/-- `TwitterRateLimitPolicy::clone_request` is `req.try_clone()`; the
requests driven through the policy are body-less GET builders, for which
`try_clone` yields an identical request. -/
def clone_request {Req : Type} (req : Req) : Option Req := some req

/-! ## Authorization negotiator (src/api.rs RawClient::new, src/api/oauth.rs)

The redirect payload delivered by the callback route, the CSRF
validation of `RawClient::new`, and the hard-coded callback port of
`oauth::redirect_server`. -/

/-- `oauth::AuthErrorKind`. -/
inductive AuthErrorKind where
  | invalidRequest
  | accessDenied
  | unauthorizedClient
  | unsupportedResponseType
  | invalidScope
  | serverError
  | temporarilyUnavailable
deriving DecidableEq, Repr

/-- `oauth::Error`: structured error payload of the redirect. -/
structure AuthError where
  kind : AuthErrorKind
  description : Option String
  uri : Option String
  state : String
deriving DecidableEq, Repr

/-- `oauth::Redirect`: the data passed along with the OAuth redirect. -/
inductive Redirect where
  | authorized (code state : String)
  | err (e : AuthError)
deriving DecidableEq, Repr

/-- Failure modes of `RawClient::new` after the redirect arrives. -/
inductive NewClientError where
  | badCsrf
  | oauthFailed (e : AuthError)
  | exchangeFailed
deriving DecidableEq, Repr

/-- The `match` in `RawClient::new` on the received redirect:
an authorized payload whose state differs from the generated CSRF token
bails with `bad csrf token`; otherwise the code is extracted; an error
payload bails with the payload. -/
def authorization_code (csrf : String) : Redirect → Except NewClientError String
  | .authorized code state =>
      if state ≠ csrf then .error .badCsrf else .ok code
  | .err e => .error (.oauthFailed e)

/-- The tail of `RawClient::new`: validate the redirect, and only then
submit the code to the token endpoint (`exchange_code ... request_async`,
abstracted as `exchange`). -/
def rawClientNew {Tok : Type} (csrf : String) (redirect : Redirect)
    (exchange : String → Except NewClientError Tok) : Except NewClientError Tok :=
  match authorization_code csrf redirect with
  | .error e => .error e
  | .ok code => exchange code

/-- The port `redirect_server` binds:
`SocketAddr::from(([127, 0, 0, 1], 8180))`. -/
def requestedPort : Nat := 8180

/-- OS bind semantics: binding port 0 yields an OS-assigned ephemeral
port; binding a nonzero port yields that port. `osEphemeral` is the port
the OS would pick for this run. `server.local_addr().port()` observes
the result. -/
def boundPort (osEphemeral : Nat) : Nat :=
  if requestedPort = 0 then osEphemeral else requestedPort

/-- The redirect URL handed to the authorize endpoint:
`http://127.0.0.1:{port}/callback` built from `local_addr().port()`. -/
def redirectUrl (osEphemeral : Nat) : String :=
  "http://127.0.0.1:" ++ toString (boundPort osEphemeral) ++ "/callback"

/-! ## Admission gate (C6)

The gate in the source is `tower::limit::RateLimit` (src/api.rs line
177), wrapped around the retrying client with
`Rate::new(900, Duration::from_secs(15 * 60))` for both endpoints. That
crate is an external dependency, not part of this repository, so the
gate itself is modelled from the spec. -/

/-- The rate budget of `Client::tweets` and `Client::users`:
900 requests per 15-minute (900-second) window. -/
def tweetsRate : Nat × Nat := (900, 15 * 60)

/-- Modelled from the spec: the admission gate "blocks new dispatch once
R requests have been issued within the trailing window W". Dispatch at
time `t` (in seconds) is admitted iff fewer than `R` of the previously
dispatched times `s` satisfy `t - W < s`, i.e. fall inside the trailing
window `(t - W, t]`. -/
def admits (R W : Nat) (prior : List Nat) (t : Nat) : Bool :=
  (prior.filter (fun s => t < s + W)).length < R

/-- Modelled from the spec: a chronological dispatch trace is valid when
every dispatch happens no earlier than all prior ones and is admitted by
the gate, `prior` being the already-dispatched times. -/
def gateTrace (R W : Nat) : List Nat → List Nat → Bool
  | _, [] => true
  | prior, t :: rest =>
    prior.all (fun s => s ≤ t) && admits R W prior t &&
      gateTrace R W (prior ++ [t]) rest

/-- Number of dispatches of `trace` inside the window `[a, a + W)`. -/
def countWindow (a W : Nat) (trace : List Nat) : Nat :=
  (trace.filter (fun s => a ≤ s && s < a + W)).length

/-! ## Fetch abort on batch failure (C7)

The draining of `FuturesUnordered` in `page_at_a_time!`: completed
chunks arrive in completion order; each is appended to `all` via
`all.extend(chunk.context(..)?)`, so the first failed chunk propagates
out of the whole function with `?`, discarding `all`. -/

def drainChunks {E T : Type} : List T → List (Except E (List T)) → Except E (List T)
  | all, [] => .ok all
  | _, .error e :: _ => .error e
  | all, .ok chunk :: rest => drainChunks (all ++ chunk) rest

/-! # Theorems -/


/-! ## Batching lemmas (C2) -/

theorem pageBatches_nil (P : Nat) : pageBatches P [] = [] := by
  rw [pageBatches.eq_def]

theorem pageBatches_cons (P : Nat) (hP : 0 < P) (ids : List Nat)
    (h : ids ≠ []) :
    pageBatches P ids = ids.take P :: pageBatches P (ids.drop P) := by
  match ids, h with
  | a :: l, _ =>
    rw [pageBatches.eq_def]
    dsimp only
    rw [if_neg (Nat.pos_iff_ne_zero.mp hP)]

theorem ceil_div_step (P n : Nat) (hP : 0 < P) (hn : 0 < n) :
    (n + P - 1) / P = (n - P + P - 1) / P + 1 := by
  rcases le_or_lt n P with h | h
  · have h1 : n - P = 0 := Nat.sub_eq_zero_of_le h
    rw [h1]
    have h2 : (0 + P - 1) / P = 0 := Nat.div_eq_of_lt (by omega)
    have h3 : (n + P - 1) / P = 1 := by
      apply Nat.div_eq_of_lt_le <;> omega
    omega
  · have h2 : n - P + P - 1 = n - 1 := by omega
    have h3 : n + P - 1 = (n - 1) + P := by omega
    rw [h2, h3, Nat.add_div_right _ hP]

theorem pageBatches_length_le (P : Nat) (hP : 0 < P) (n : Nat) :
    ∀ ids : List Nat, ids.length ≤ n →
      (pageBatches P ids).length = (ids.length + P - 1) / P := by
  induction n with
  | zero =>
    intro ids h
    have : ids = [] := List.eq_nil_of_length_eq_zero (Nat.le_zero.mp h)
    subst this
    simp [pageBatches_nil, Nat.div_eq_of_lt (by omega : P - 1 < P)]
  | succ n ih =>
    intro ids h
    match ids with
    | [] => simp [pageBatches_nil, Nat.div_eq_of_lt (by omega : P - 1 < P)]
    | a :: l =>
      have hlen' : l.length + 1 ≤ n + 1 := by simpa using h
      rw [pageBatches_cons P hP _ (by simp)]
      have hdrop : ((a :: l).drop P).length ≤ n := by
        simp only [List.length_drop, List.length_cons]
        omega
      rw [List.length_cons, ih _ hdrop, List.length_drop, List.length_cons]
      have := ceil_div_step P (l.length + 1) hP (by omega)
      omega

theorem pageBatches_length (P : Nat) (hP : 0 < P) (ids : List Nat) :
    (pageBatches P ids).length = (ids.length + P - 1) / P :=
  pageBatches_length_le P hP ids.length ids (Nat.le_refl _)

theorem pageBatches_getElem_le (P : Nat) (hP : 0 < P) (n : Nat) :
    ∀ ids : List Nat, ids.length ≤ n → ∀ i : Nat,
      i < (pageBatches P ids).length →
      (pageBatches P ids)[i]? = some ((ids.drop (i * P)).take P) := by
  induction n with
  | zero =>
    intro ids hlen i hi
    have : ids = [] := List.eq_nil_of_length_eq_zero (Nat.le_zero.mp hlen)
    subst this
    simp [pageBatches_nil] at hi
  | succ n ih =>
    intro ids hlen i hi
    match ids with
    | [] => simp [pageBatches_nil] at hi
    | a :: l =>
      have hlen' : l.length + 1 ≤ n + 1 := by simpa using hlen
      rw [pageBatches_cons P hP _ (by simp)] at hi ⊢
      match i with
      | 0 => simp
      | i + 1 =>
        rw [List.getElem?_cons_succ]
        have hdrop : ((a :: l).drop P).length ≤ n := by
          simp only [List.length_drop, List.length_cons]
          omega
        have hi' : i < (pageBatches P ((a :: l).drop P)).length := by
          simp only [List.length_cons] at hi
          omega
        rw [ih _ hdrop i hi', List.drop_drop]
        have harith : P + i * P = (i + 1) * P := by ring
        rw [harith]

theorem pageBatches_getElem (P : Nat) (hP : 0 < P) (ids : List Nat) (i : Nat)
    (hi : i < (pageBatches P ids).length) :
    (pageBatches P ids)[i]? = some ((ids.drop (i * P)).take P) :=
  pageBatches_getElem_le P hP ids.length ids (Nat.le_refl _) i hi

theorem pageBatches_flatten_le (P : Nat) (hP : 0 < P) (n : Nat) :
    ∀ ids : List Nat, ids.length ≤ n → (pageBatches P ids).flatten = ids := by
  induction n with
  | zero =>
    intro ids hlen
    have : ids = [] := List.eq_nil_of_length_eq_zero (Nat.le_zero.mp hlen)
    subst this
    simp [pageBatches_nil]
  | succ n ih =>
    intro ids hlen
    match ids with
    | [] => simp [pageBatches_nil]
    | a :: l =>
      have hlen' : l.length + 1 ≤ n + 1 := by simpa using hlen
      rw [pageBatches_cons P hP _ (by simp), List.flatten_cons,
        ih _ (by simp only [List.length_drop, List.length_cons]; omega),
        List.take_append_drop]

theorem pageBatches_flatten (P : Nat) (hP : 0 < P) (ids : List Nat) :
    (pageBatches P ids).flatten = ids :=
  pageBatches_flatten_le P hP ids.length ids (Nat.le_refl _)

theorem pageBatches_size_le (P : Nat) (hP : 0 < P) (n : Nat) :
    ∀ ids : List Nat, ids.length ≤ n →
      ∀ b ∈ pageBatches P ids, b.length ≤ P := by
  induction n with
  | zero =>
    intro ids hlen b hb
    have : ids = [] := List.eq_nil_of_length_eq_zero (Nat.le_zero.mp hlen)
    subst this
    rw [pageBatches_nil] at hb
    simp at hb
  | succ n ih =>
    intro ids hlen b hb
    match ids with
    | [] =>
      rw [pageBatches_nil] at hb
      simp at hb
    | a :: l =>
      have hlen' : l.length + 1 ≤ n + 1 := by simpa using hlen
      rw [pageBatches_cons P hP _ (by simp)] at hb
      rcases List.mem_cons.mp hb with h | h
      · subst h
        simp [List.length_take]
      · exact ih _ (by simp only [List.length_drop, List.length_cons]; omega) b h

theorem pageBatches_sizes (P : Nat) (hP : 0 < P) (ids : List Nat) :
    ∀ b ∈ pageBatches P ids, b.length ≤ P :=
  pageBatches_size_le P hP ids.length ids (Nat.le_refl _)

/-! ## Serialization lemmas (C2) -/

theorem decBytes_ne_nil (n : Nat) : decBytes n ≠ [] := by
  unfold decBytes
  split <;> simp

theorem mem_decBytes (n : Nat) : ∀ b ∈ decBytes n, 48 ≤ b ∧ b ≤ 57 := by
  induction n using Nat.strong_induction_on with
  | _ n ih =>
    intro b hb
    unfold decBytes at hb
    split at hb
    · simp only [List.mem_singleton] at hb
      omega
    · rcases List.mem_append.mp hb with h | h
      · exact ih (n / 10) (by omega) b h
      · simp only [List.mem_singleton] at h
        have : n % 10 < 10 := Nat.mod_lt _ (by omega)
        omega

theorem foldl_serStep_of_ne_nil (s : List Nat) (hs : s ≠ []) :
    ∀ xs : List Nat,
      xs.foldl serStep s = s ++ xs.flatMap (fun id => 44 :: decBytes id) := by
  intro xs
  induction xs generalizing s with
  | nil => simp
  | cons x xs ih =>
    have hstep : serStep s x = s ++ 44 :: decBytes x := by
      unfold serStep
      simp [List.isEmpty_iff, hs]
    rw [List.foldl_cons, hstep, ih _ (by simp [hs]), List.flatMap_cons,
      List.append_assoc]

theorem serializeBatch_nil : serializeBatch [] = [] := rfl

theorem serializeBatch_cons (x : Nat) (xs : List Nat) :
    serializeBatch (x :: xs) =
      decBytes x ++ xs.flatMap (fun id => 44 :: decBytes id) := by
  unfold serializeBatch
  rw [List.foldl_cons]
  have hstep : serStep [] x = decBytes x := by
    unfold serStep
    simp
  rw [hstep]
  exact foldl_serStep_of_ne_nil _ (decBytes_ne_nil x) xs

theorem serializeBatch_head (l : List Nat) (hl : l ≠ []) :
    (serializeBatch l).head? ≠ some 44 := by
  match l, hl with
  | x :: xs, _ =>
    rw [serializeBatch_cons, List.head?_append]
    intro hcontra
    rcases hd : (decBytes x).head? with _ | b
    · exact decBytes_ne_nil x (List.head?_eq_none_iff.mp hd)
    · rw [hd] at hcontra
      simp only [Option.or_some, Option.some.injEq] at hcontra
      subst hcontra
      have h44 : (44 : Nat) ∈ (decBytes x).head? := by
        rw [hd]
        rfl
      have := mem_decBytes x 44 (List.mem_of_mem_head? h44)
      omega

theorem getLast_cons_decBytes (m : Nat) :
    (44 :: decBytes m).getLast? ≠ some 44 := by
  intro hcontra
  have hne := decBytes_ne_nil m
  have hsome := List.getLast?_isSome.mpr hne
  rcases Option.isSome_iff_exists.mp hsome with ⟨b, hb⟩
  have heq : (44 :: decBytes m).getLast? = some b := by
    have hsplit : (44 :: decBytes m) = [44] ++ decBytes m := rfl
    rw [hsplit, List.getLast?_append, hb]
    rfl
  rw [heq] at hcontra
  have hmem : b ∈ (decBytes m).getLast? := by
    rw [hb]
    rfl
  have := mem_decBytes m b (List.mem_of_mem_getLast? hmem)
  simp only [Option.some.injEq] at hcontra
  omega

theorem serializeBatch_last (l : List Nat) (hl : l ≠ []) :
    (serializeBatch l).getLast? ≠ some 44 := by
  induction l using List.reverseRecOn with
  | nil => exact absurd rfl hl
  | append_singleton ys z _ =>
    match ys with
    | [] =>
      simp only [List.nil_append]
      rw [serializeBatch_cons]
      simp only [List.flatMap_nil, List.append_nil]
      intro hcontra
      have hmem : (44 : Nat) ∈ (decBytes z).getLast? := by
        rw [hcontra]
        rfl
      have := mem_decBytes z 44 (List.mem_of_mem_getLast? hmem)
      omega
    | x :: xs =>
      have hassoc : (x :: xs) ++ [z] = x :: (xs ++ [z]) := rfl
      rw [hassoc, serializeBatch_cons, List.flatMap_append, List.flatMap_cons,
        List.flatMap_nil, List.append_nil, List.getLast?_append,
        List.getLast?_append]
      intro hcontra
      have h44 := getLast_cons_decBytes z
      rcases hk : (44 :: decBytes z).getLast? with _ | b
      · have hne : (44 :: decBytes z) ≠ [] := by simp
        have := List.getLast?_isSome.mpr hne
        rw [hk] at this
        simp at this
      · rw [hk] at hcontra
        simp only [Option.or_some, Option.some.injEq] at hcontra
        rw [hk, hcontra] at h44
        exact h44 rfl


/-! ## Extractor lemmas (C3, C4) -/

theorem wsList_nil : WsList [] := by
  intro b hb
  cases hb

theorem read_skipping_ws_append (w : List Nat) (hw : WsList w) (b : Nat)
    (hb : ¬ isWsByte b) (r : List Nat) :
    read_skipping_ws (w ++ b :: r) = .ok (b, r) := by
  induction w with
  | nil =>
    unfold read_skipping_ws
    simp [hb]
  | cons c w ih =>
    have hc : isWsByte c := hw c (by simp)
    unfold read_skipping_ws
    simp only [List.cons_append, hc, if_pos]
    exact ih fun x hx => hw x (by simp [hx])

theorem yield_done {T : Type} (dec : Decoder T) (w trailing : List Nat)
    (hw : WsList w) :
    yield_next_obj dec (w ++ RBRACK :: trailing) true = .ok (none, trailing) := by
  unfold yield_next_obj
  rw [read_skipping_ws_append w hw RBRACK (by decide) trailing]
  norm_num [COMMA, RBRACK]

theorem yield_more {T : Type} (dec : Decoder T) (w rest rest' : List Nat)
    (v : T) (hw : WsList w) (hdec : dec rest = some (v, rest')) :
    yield_next_obj dec (w ++ COMMA :: rest) true = .ok (some v, rest') := by
  unfold yield_next_obj
  rw [read_skipping_ws_append w hw COMMA (by decide) rest]
  simp [deserialize_single, hdec]

theorem yield_sep_junk {T : Type} (dec : Decoder T) (w : List Nat) (b : Nat)
    (r : List Nat) (hw : WsList w) (hb : ¬ isWsByte b) (hc : b ≠ COMMA)
    (hr : b ≠ RBRACK) :
    yield_next_obj dec (w ++ b :: r) true =
      .error (.invalidData "comma or bracket not found") := by
  unfold yield_next_obj
  rw [read_skipping_ws_append w hw b hb r]
  simp [hc, hr]

theorem yield_first_empty {T : Type} (dec : Decoder T) (w0 w1 trailing : List Nat)
    (hw0 : WsList w0) (hw1 : WsList w1) :
    yield_next_obj dec (w0 ++ LBRACK :: (w1 ++ RBRACK :: trailing)) false =
      .ok (none, trailing) := by
  unfold yield_next_obj
  rw [read_skipping_ws_append w0 hw0 LBRACK (by decide)]
  simp [read_skipping_ws_append w1 hw1 RBRACK (by decide)]

theorem yield_first_elem {T : Type} (dec : Decoder T) (w0 w1 : List Nat)
    (b : Nat) (u rest : List Nat) (v : T) (hw0 : WsList w0) (hw1 : WsList w1)
    (hb : ¬ isWsByte b) (hbr : b ≠ RBRACK)
    (hdec : dec (b :: u) = some (v, rest)) :
    yield_next_obj dec (w0 ++ LBRACK :: (w1 ++ b :: u)) false =
      .ok (some v, rest) := by
  unfold yield_next_obj
  rw [read_skipping_ws_append w0 hw0 LBRACK (by decide)]
  simp [read_skipping_ws_append w1 hw1 b hb, hbr, deserialize_single, hdec]

theorem runExtractor_tail {T : Type} (dec : Decoder T) (s : List Nat)
    (vs : List T) (h : ArrayTail dec s vs) :
    ∀ fuel, vs.length < fuel → runExtractor dec fuel s true = .ok vs := by
  induction h with
  | done w trailing hw =>
    intro fuel hfuel
    obtain ⟨f, rfl⟩ : ∃ f, fuel = f + 1 := ⟨fuel - 1, by omega⟩
    unfold runExtractor
    rw [yield_done dec w trailing hw]
  | more w rest rest' v vs hw hdec hlen htail ih =>
    intro fuel hfuel
    obtain ⟨f, rfl⟩ : ∃ f, fuel = f + 1 := ⟨fuel - 1, by omega⟩
    simp only [List.length_cons] at hfuel
    unfold runExtractor
    rw [yield_more dec w rest rest' v hw hdec]
    simp [ih f (by omega)]

theorem arrayTail_len_le {T : Type} {dec : Decoder T} {s : List Nat}
    {vs : List T} (h : ArrayTail dec s vs) : vs.length ≤ s.length := by
  induction h with
  | done w trailing hw => simp
  | more w rest rest' v vs hw hdec hlen htail ih =>
    simp only [List.length_append, List.length_cons]
    omega

theorem arrayBytes_len_le {T : Type} {dec : Decoder T} {s : List Nat}
    {vs : List T} (h : ArrayBytes dec s vs) : vs.length ≤ s.length := by
  cases h with
  | empty w0 w1 trailing hw0 hw1 => simp
  | nonempty w0 w1 b u rest v vs hw0 hw1 hb hbr hdec hlen htail =>
    have h1 := arrayTail_len_le htail
    simp only [List.length_append, List.length_cons]
    omega

theorem runExtractor_array {T : Type} (dec : Decoder T) (s : List Nat)
    (vs : List T) (h : ArrayBytes dec s vs) :
    ∀ fuel, vs.length < fuel → runExtractor dec fuel s false = .ok vs := by
  cases h with
  | empty w0 w1 trailing hw0 hw1 =>
    intro fuel hfuel
    obtain ⟨f, rfl⟩ : ∃ f, fuel = f + 1 := ⟨fuel - 1, by omega⟩
    unfold runExtractor
    rw [yield_first_empty dec w0 w1 trailing hw0 hw1]
  | nonempty w0 w1 b u rest v vs hw0 hw1 hb hbr hdec hlen htail =>
    intro fuel hfuel
    obtain ⟨f, rfl⟩ : ∃ f, fuel = f + 1 := ⟨fuel - 1, by omega⟩
    simp only [List.length_cons] at hfuel
    unfold runExtractor
    rw [yield_first_elem dec w0 w1 b u rest v hw0 hw1 hb hbr hdec]
    simp [runExtractor_tail dec rest vs htail f (by omega)]


instance decWsList (w : List Nat) : Decidable (WsList w) :=
  inferInstanceAs (Decidable (∀ b ∈ w, isWsByte b))

theorem wsList_not_lbrack {w : List Nat} (hw : WsList w) : LBRACK ∉ w := by
  intro hm
  have := hw LBRACK hm
  simp [isWsByte, LBRACK] at this

theorem findIdx_lbrack (pre : List Nat) (h : LBRACK ∉ pre) (rest : List Nat) :
    ∀ i, List.findIdx? (fun b => b = LBRACK) (pre ++ LBRACK :: rest) i =
      some (pre.length + i) := by
  induction pre with
  | nil =>
    intro i
    simp [List.findIdx?_cons]
  | cons c cs ih =>
    intro i
    have hc : c ≠ LBRACK := fun hcontra => h (by rw [hcontra]; exact List.mem_cons_self _ _)
    rw [List.cons_append, List.findIdx?_cons, if_neg (by simp [hc]),
      ih (fun hm => h (List.mem_cons_of_mem c hm)) (i + 1)]
    have harith : cs.length + (i + 1) = (c :: cs).length + i := by
      simp only [List.length_cons]
      omega
    rw [harith]

theorem findBracket_split (pre rest : List Nat) (h : LBRACK ∉ pre) :
    findBracket (pre ++ LBRACK :: rest) = some pre.length := by
  unfold findBracket
  rw [findIdx_lbrack pre h rest 0]
  simp

theorem findBracket_none (contents : List Nat) (h : LBRACK ∉ contents) :
    findBracket contents = none := by
  unfold findBracket
  rw [List.findIdx?_eq_none_iff]
  intro x hx
  simp only [decide_eq_false_iff_not]
  intro hcontra
  exact h (hcontra ▸ hx)

theorem parseContents_wellFormed {T : Type} (dec : Decoder T) (pre s : List Nat)
    (vs : List T) (hpre : LBRACK ∉ pre) (h : ArrayBytes dec s vs) :
    parseContents dec some (pre ++ s) = .ok vs := by
  cases h with
  | empty w0 w1 trailing hw0 hw1 =>
    have hassoc : pre ++ (w0 ++ LBRACK :: (w1 ++ RBRACK :: trailing)) =
        (pre ++ w0) ++ LBRACK :: (w1 ++ RBRACK :: trailing) := by
      simp [List.append_assoc]
    have hnot : LBRACK ∉ pre ++ w0 := by
      intro hm
      rcases List.mem_append.mp hm with hm | hm
      · exact hpre hm
      · exact wsList_not_lbrack hw0 hm
    unfold parseContents
    rw [hassoc, findBracket_split _ _ hnot]
    simp only [List.drop_left]
    have hrun := runExtractor_array dec
      (([] : List Nat) ++ LBRACK :: (w1 ++ RBRACK :: trailing)) []
      (ArrayBytes.empty [] w1 trailing wsList_nil hw1)
      (((pre ++ w0) ++ LBRACK :: (w1 ++ RBRACK :: trailing)).length + 1)
      (by simp)
    rw [List.nil_append] at hrun
    rw [hrun]
    simp [List.filterMap_some]
  | nonempty w0 w1 b u rest v vs hw0 hw1 hb hbr hdec hlen htail =>
    have hassoc : pre ++ (w0 ++ LBRACK :: (w1 ++ b :: u)) =
        (pre ++ w0) ++ LBRACK :: (w1 ++ b :: u) := by
      simp [List.append_assoc]
    have hnot : LBRACK ∉ pre ++ w0 := by
      intro hm
      rcases List.mem_append.mp hm with hm | hm
      · exact hpre hm
      · exact wsList_not_lbrack hw0 hm
    have harr : ArrayBytes dec (([] : List Nat) ++ LBRACK :: (w1 ++ b :: u)) (v :: vs) :=
      ArrayBytes.nonempty [] w1 b u rest v vs wsList_nil hw1 hb hbr hdec hlen htail
    have hbound := arrayBytes_len_le harr
    unfold parseContents
    rw [hassoc, findBracket_split _ _ hnot]
    simp only [List.drop_left]
    have hrun := runExtractor_array dec _ _ harr
      (((pre ++ w0) ++ LBRACK :: (w1 ++ b :: u)).length + 1)
      (by
        simp only [List.nil_append] at hbound ⊢
        simp only [List.length_append, List.length_cons] at hbound ⊢
        omega)
    rw [List.nil_append] at hrun
    rw [hrun]
    simp [List.filterMap_some]

/-- Claim C3: for every well-formed prefixed array input of k elements,
the extractor's iterator yields exactly the k decoded elements in
original order (both at the raw iterator level and through
`archive::parse`'s prefix slicing with an identity filter-map); in
particular an empty array (`[` then `]`, with interleaved whitespace)
yields zero elements and no error. -/
theorem extractor_yields_all_elements {T : Type} (dec : Decoder T) :
    (∀ s vs fuel, ArrayBytes dec s vs → vs.length < fuel →
      runExtractor dec fuel s false = .ok vs) ∧
    (∀ pre s vs, LBRACK ∉ pre → ArrayBytes dec s vs →
      parseContents dec some (pre ++ s) = .ok vs) ∧
    (∀ w0 w1 trailing fuel, WsList w0 → WsList w1 → 0 < fuel →
      runExtractor dec fuel (w0 ++ LBRACK :: (w1 ++ RBRACK :: trailing)) false =
        .ok []) := by
  refine ⟨?_, ?_, ?_⟩
  · intro s vs fuel h hfuel
    exact runExtractor_array dec s vs h fuel hfuel
  · intro pre s vs hpre h
    exact parseContents_wellFormed dec pre s vs hpre h
  · intro w0 w1 trailing fuel hw0 hw1 hfuel
    exact runExtractor_array dec _ _ (ArrayBytes.empty w0 w1 trailing hw0 hw1)
      fuel (by simpa using hfuel)

/-- Witness for C3 at the concrete input `"[1, 2]"` (bytes
91 49 44 32 50 93) with the single-digit decoder, and at the prefixed
empty array `"x[]"` (bytes 120 91 93). -/
theorem extractor_yields_all_elements_witness :
    runExtractor decDigit 3 [91, 49, 44, 32, 50, 93] false = .ok [1, 2] ∧
    parseContents decDigit some [120, 91, 93] = .ok [] := by
  have htail : ArrayTail decDigit [44, 32, 50, 93] [2] :=
    ArrayTail.more [] [32, 50, 93] [93] 2 [] wsList_nil (by decide) (by decide)
      (ArrayTail.done [] [] wsList_nil)
  have harr : ArrayBytes decDigit [91, 49, 44, 32, 50, 93] [1, 2] :=
    ArrayBytes.nonempty [] [] 49 [44, 32, 50, 93] [44, 32, 50, 93] 1 [2]
      wsList_nil wsList_nil (by decide) (by decide) (by decide) (by decide) htail
  have hempty : ArrayBytes decDigit [91, 93] [] :=
    ArrayBytes.empty [] [] [] wsList_nil wsList_nil
  exact ⟨(extractor_yields_all_elements decDigit).1 _ _ 3 harr (by decide),
    (extractor_yields_all_elements decDigit).2.1 [120] [91, 93] [] (by decide)
      hempty⟩

/-- Claim C4: an input in which `[` never occurs fails with the
`DataFormatError` of `archive::parse`; after the first element, a
non-whitespace byte other than `,` or `]` in separator position fails
with the `DataFormatError` of `yield_next_obj`; and once the closing `]`
is read the iterator yields no further items and no error, whatever the
trailing bytes are. -/
theorem extractor_rejects_malformed {T FT : Type} (dec : Decoder T)
    (map : T → Option FT) :
    (∀ contents, LBRACK ∉ contents →
      parseContents dec map contents =
        .error (.invalidData "find bracket indicating start of data")) ∧
    (∀ w b r, WsList w → ¬ isWsByte b → b ≠ COMMA → b ≠ RBRACK →
      yield_next_obj dec (w ++ b :: r) true =
        .error (.invalidData "comma or bracket not found")) ∧
    (∀ w trailing fuel, WsList w → 0 < fuel →
      runExtractor dec fuel (w ++ RBRACK :: trailing) true = .ok []) := by
  refine ⟨?_, ?_, ?_⟩
  · intro contents h
    unfold parseContents
    rw [findBracket_none contents h]
  · intro w b r hw hb hc hr
    exact yield_sep_junk dec w b r hw hb hc hr
  · intro w trailing fuel hw hfuel
    obtain ⟨f, rfl⟩ : ∃ f, fuel = f + 1 := ⟨fuel - 1, by omega⟩
    unfold runExtractor
    rw [yield_done dec w trailing hw]

/-- Witness for C4: a bracket-free input fails, a `:` in separator
position fails, and after `]` trailing garbage is ignored. -/
theorem extractor_rejects_malformed_witness :
    parseContents decDigit some [120] =
      .error (.invalidData "find bracket indicating start of data") ∧
    yield_next_obj decDigit [58] true =
      .error (.invalidData "comma or bracket not found") ∧
    runExtractor decDigit 1 [32, 93, 99, 99] true = .ok [] := by
  refine ⟨(extractor_rejects_malformed decDigit some).1 [120] (by decide),
    (extractor_rejects_malformed decDigit some).2.1 [] 58 [] wsList_nil
      (by decide) (by decide) (by decide),
    (extractor_rejects_malformed decDigit some).2.2 [32] [99, 99] 1 (by decide)
      (by decide)⟩

/-- Claim C2: for every exact-size collection of N identifiers and
positive page size P, the fetcher dispatches exactly ceil(N/P) batches;
batch i is the slice of input indices [i*P, min((i+1)*P, N)) in input
order; the concatenation of all batches is the input, so every submitted
identifier appears in exactly one batch; no batch exceeds P; and each
batch is serialized as a comma-joined list (first element bare, each
subsequent element preceded by exactly one comma) with no leading or
trailing separator byte. -/
theorem batches_partition_input (P : Nat) (hP : 0 < P) (ids : List Nat) :
    (pageBatches P ids).length = (ids.length + P - 1) / P ∧
    (∀ i : Nat, i < (pageBatches P ids).length →
      (pageBatches P ids)[i]? = some ((ids.drop (i * P)).take P)) ∧
    (pageBatches P ids).flatten = ids ∧
    (∀ b ∈ pageBatches P ids, b.length ≤ P) ∧
    (serializeBatch [] = [] ∧ ∀ x xs, serializeBatch (x :: xs) =
      decBytes x ++ xs.flatMap (fun id => 44 :: decBytes id)) ∧
    (∀ l : List Nat, l ≠ [] →
      (serializeBatch l).head? ≠ some 44 ∧
      (serializeBatch l).getLast? ≠ some 44) :=
  ⟨pageBatches_length P hP ids,
   fun i hi => pageBatches_getElem P hP ids i hi,
   pageBatches_flatten P hP ids,
   pageBatches_sizes P hP ids,
   ⟨serializeBatch_nil, serializeBatch_cons⟩,
   fun l hl => ⟨serializeBatch_head l hl, serializeBatch_last l hl⟩⟩

/-- Witness for C2 at page size 100 (the source's literal) and a
two-identifier input. -/
theorem batches_partition_input_witness :
    0 < 100 ∧ (pageBatches 100 [5, 17]).flatten = [5, 17] :=
  ⟨Nat.succ_pos 99, (batches_partition_input 100 (Nat.succ_pos 99) [5, 17]).2.2.1⟩


/-! ## Retry policy (C1, C10) -/

theorem retry_429_reduces (st : Nat) (xr : Option (List Nat)) (nowMs : Nat)
    (bs : List Nat) (reset : Nat) (hst : st = 429) (hxr : xr = some bs)
    (hstr : headerToStr bs = some bs) (hparse : parseU64Bytes bs = some reset) :
    retry (.ok ⟨st, xr⟩) nowMs =
      if nowMs ≤ reset * 1000 && (reset * 1000 - nowMs) / 1000 > 1
      then .retryAfterSleep (reset * 1000 - nowMs)
      else .retryImmediate := by
  subst hst hxr
  unfold retry
  simp [hstr, hparse]

/-- Counterexample to claim C1 as stated: a 429 whose reset header reads
"2" (reset instant 2000 ms after the epoch) received at now = 500 ms
gives a wait of 1500 ms, which exceeds 1 second, yet the policy retries
immediately instead of suspending for the wait
(`d.as_secs() > 1` is false for a 1.5-second duration). -/
theorem retry_wait_counterexample :
    1000 < 2 * 1000 - 500 ∧
    retry (.ok ⟨429, some [50]⟩) 500 = .retryImmediate := by
  constructor
  · decide
  · decide

/-- Claim C1 (amended): the policy retries iff the transport succeeded
and the status is exactly 429; with a well-formed reset header it
computes wait = reset instant − now, suspends for wait when wait is at
least 2 whole seconds (`d.as_secs() > 1`, i.e. wait ≥ 2000 ms) and
otherwise retries immediately (including when the reset instant is not
in the future); the reissued request is the identical original
(`try_clone` of a body-less GET); every other outcome — transport
failure or any other status — is returned as-is with no retry. -/
theorem retry_only_on_429 :
    (∀ nowMs, retry (.error ()) nowMs = .noRetry) ∧
    (∀ r nowMs, r.status ≠ 429 → retry (.ok r) nowMs = .noRetry) ∧
    (∀ st xr nowMs bs reset, st = 429 → xr = some bs →
      headerToStr bs = some bs → parseU64Bytes bs = some reset →
      (2000 ≤ reset * 1000 - nowMs →
        retry (.ok ⟨st, xr⟩) nowMs = .retryAfterSleep (reset * 1000 - nowMs)) ∧
      (reset * 1000 - nowMs < 2000 →
        retry (.ok ⟨st, xr⟩) nowMs = .retryImmediate)) ∧
    (∀ (Req : Type) (req : Req), clone_request req = some req) := by
  refine ⟨fun nowMs => rfl, ?_, ?_, fun Req req => rfl⟩
  · intro r nowMs h
    unfold retry
    simp [h]
  · intro st xr nowMs bs reset hst hxr hstr hparse
    rw [retry_429_reduces st xr nowMs bs reset hst hxr hstr hparse]
    constructor
    · intro hwait
      rw [if_pos]
      simp only [Bool.and_eq_true, decide_eq_true_eq]
      constructor
      · omega
      · omega
    · intro hwait
      rcases le_or_lt nowMs (reset * 1000) with hle | hlt
      · rw [if_neg]
        simp only [Bool.and_eq_true, decide_eq_true_eq, not_and]
        intro _
        omega
      · rw [if_neg]
        simp only [Bool.and_eq_true, decide_eq_true_eq, not_and]
        intro hcontra
        omega

/-- Witness for C1 (amended) at a sleep case (reset "9" = 9000 ms, now
1000 ms, wait 8000 ms) and a transport-failure case. -/
theorem retry_only_on_429_witness :
    retry (.ok ⟨429, some [57]⟩) 1000 = .retryAfterSleep 8000 ∧
    retry (.error ()) 5 = .noRetry ∧
    retry (.ok ⟨200, some [57]⟩) 7 = .noRetry := by
  refine ⟨?_, retry_only_on_429.1 5, retry_only_on_429.2.1 ⟨200, some [57]⟩ 7 (by decide)⟩
  have h := (retry_only_on_429.2.2.1 429 (some [57]) 1000 [57] 9 rfl rfl
    (by decide) (by decide)).1 (by decide)
  simpa using h

/-- Claim C10: on a 429, a missing `x-rate-limit-reset` header, a header
value that is not (visible) ASCII, or one that does not parse as a
decimal u64 each make the policy panic in the corresponding `expect`
instead of returning an error value; the non-panicking path requires the
header to be present and parseable as a u64. -/
theorem retry_panics_on_malformed_header :
    (∀ r nowMs, r.status = 429 → r.xRateLimitReset = none →
      retry (.ok r) nowMs = .panicked "Twitter promised") ∧
    (∀ r nowMs bs, r.status = 429 → r.xRateLimitReset = some bs →
      headerToStr bs = none →
      retry (.ok r) nowMs = .panicked "x-rate-limit-reset as str") ∧
    (∀ r nowMs bs, r.status = 429 → r.xRateLimitReset = some bs →
      headerToStr bs = some bs → parseU64Bytes bs = none →
      retry (.ok r) nowMs = .panicked "x-rate-limit-reset is a number") ∧
    (∀ r nowMs, r.status = 429 →
      (∀ msg, retry (.ok r) nowMs ≠ .panicked msg) →
      ∃ bs reset, r.xRateLimitReset = some bs ∧
        parseU64Bytes bs = some reset) := by
  refine ⟨?_, ?_, ?_, ?_⟩
  · intro r nowMs hst hxr
    unfold retry
    simp [hst, hxr]
  · intro r nowMs bs hst hxr hstr
    unfold retry
    simp [hst, hxr, hstr]
  · intro r nowMs bs hst hxr hstr hparse
    unfold retry
    simp [hst, hxr, hstr, hparse]
  · intro r nowMs hst hnopanic
    rcases hxr : r.xRateLimitReset with _ | bs
    · exfalso
      apply hnopanic "Twitter promised"
      unfold retry
      simp [hst, hxr]
    · rcases hstr : headerToStr bs with _ | cs
      · exfalso
        apply hnopanic "x-rate-limit-reset as str"
        unfold retry
        simp [hst, hxr, hstr]
      · have hcs : cs = bs := by
          unfold headerToStr at hstr
          split at hstr
          · injection hstr with hinj
            exact hinj.symm
          · cases hstr
        rcases hparse : parseU64Bytes bs with _ | reset
        · exfalso
          apply hnopanic "x-rate-limit-reset is a number"
          unfold retry
          simp [hst, hxr, hstr, hcs, hparse]
        · exact ⟨bs, reset, rfl, hparse⟩

/-- Witness for C10: missing header, non-ASCII header byte 200, and the
non-numeric header "A" each panic; the header "0" does not. -/
theorem retry_panics_on_malformed_header_witness :
    retry (.ok ⟨429, none⟩) 0 = .panicked "Twitter promised" ∧
    retry (.ok ⟨429, some [200]⟩) 0 = .panicked "x-rate-limit-reset as str" ∧
    retry (.ok ⟨429, some [65]⟩) 0 = .panicked "x-rate-limit-reset is a number" ∧
    (∃ bs reset, (Response.mk 429 (some [48])).xRateLimitReset = some bs ∧
      parseU64Bytes bs = some reset) := by
  refine ⟨retry_panics_on_malformed_header.1 ⟨429, none⟩ 0 rfl rfl,
    retry_panics_on_malformed_header.2.1 ⟨429, some [200]⟩ 0 [200] rfl rfl
      (by decide),
    retry_panics_on_malformed_header.2.2.1 ⟨429, some [65]⟩ 0 [65] rfl rfl
      (by decide) (by decide),
    retry_panics_on_malformed_header.2.2.2 ⟨429, some [48]⟩ 0 rfl ?_⟩
  intro msg hmsg
  rw [show retry (.ok ⟨429, some [48]⟩) 0 = .retryImmediate by decide] at hmsg
  exact absurd hmsg (by simp)

/-! ## CSRF validation (C5) -/

/-- Claim C5: the returned state is compared byte-exactly against the
originally generated CSRF token; a mismatch is rejected as the CSRF
failure before any token-exchange request is made (the result is the
CSRF error for every possible exchange function), and the exchange is
attempted exactly when the states are equal. -/
theorem csrf_checked_before_exchange {Tok : Type} (csrf code state : String) :
    (state ≠ csrf → ∀ exchange : String → Except NewClientError Tok,
      rawClientNew csrf (.authorized code state) exchange = .error .badCsrf) ∧
    (state = csrf → ∀ exchange : String → Except NewClientError Tok,
      rawClientNew csrf (.authorized code state) exchange = exchange code) ∧
    (∀ e : AuthError, ∀ exchange : String → Except NewClientError Tok,
      rawClientNew csrf (.err e) exchange = .error (.oauthFailed e)) := by
  refine ⟨?_, ?_, ?_⟩
  · intro h exchange
    unfold rawClientNew authorization_code
    simp [h]
  · intro h exchange
    unfold rawClientNew authorization_code
    simp [h]
  · intro e exchange
    rfl

/-- Witness for C5: a mismatching state "b" against token "a" fails as
CSRF for a concrete exchange function; a matching state reaches it. -/
theorem csrf_checked_before_exchange_witness :
    rawClientNew "a" (.authorized "c" "b") (fun _ => (.ok () : Except NewClientError Unit)) =
      .error .badCsrf ∧
    rawClientNew "a" (.authorized "c" "a") (fun _ => (.ok () : Except NewClientError Unit)) =
      .ok () :=
  ⟨(csrf_checked_before_exchange "a" "c" "b").1 (by decide) _,
   (csrf_checked_before_exchange "a" "c" "a").2.1 rfl _⟩

/-! ## Callback port (C9) -/

/-- Counterexample to claim C9 as stated: the listener does not bind an
OS-assigned ephemeral port. In two runs where the OS would hand out the
distinct ephemeral ports 49152 and 50000, the bound port is 8180 both
times, equal to neither: the port is fixed, not fresh per run. -/
theorem port_not_ephemeral_counterexample :
    boundPort 49152 = 8180 ∧ boundPort 50000 = 8180 ∧
    boundPort 49152 ≠ 49152 ∧ boundPort 50000 ≠ 50000 := by
  refine ⟨rfl, rfl, by decide, by decide⟩

/-- Claim C9 (amended): the callback listener binds the fixed loopback
port 8180 (hard-coded; the source comments that the provider's redirect
allow-listing does not permit wildcard localhost ports), and the
redirect URL handed to the authorization endpoint uses that port. -/
theorem redirect_binds_fixed_port (osEphemeral : Nat) :
    boundPort osEphemeral = 8180 ∧
    redirectUrl osEphemeral = "http://127.0.0.1:8180/callback" := by
  refine ⟨rfl, ?_⟩
  unfold redirectUrl
  rw [show boundPort osEphemeral = 8180 from rfl]
  decide


/-! ## Admission gate (C6) -/

theorem countWindow_lt_of_admits {R W : Nat} {prior : List Nat} {t a : Nat}
    (hadm : admits R W prior t) (_ha : a ≤ t) (hW : t < a + W) :
    countWindow a W prior < R := by
  unfold admits at hadm
  unfold countWindow
  have hsub : (prior.filter (fun s => a ≤ s && s < a + W)).length ≤
      (prior.filter (fun s => t < s + W)).length := by
    apply List.Sublist.length_le
    apply List.monotone_filter_right
    intro x hx
    simp only [Bool.and_eq_true, decide_eq_true_eq] at hx ⊢
    omega
  simp only [decide_eq_true_eq] at hadm
  omega

theorem gateTrace_window_rec (R W : Nat) :
    ∀ (rest prior : List Nat), gateTrace R W prior rest = true →
      ∀ a, countWindow a W (prior ++ rest) ≤ max (countWindow a W prior) R := by
  intro rest
  induction rest with
  | nil =>
    intro prior _ a
    simp only [List.append_nil]
    exact le_max_left _ _
  | cons t rest ih =>
    intro prior h a
    unfold gateTrace at h
    simp only [Bool.and_eq_true] at h
    obtain ⟨⟨_, hadm⟩, htrace⟩ := h
    have happ : prior ++ t :: rest = (prior ++ [t]) ++ rest := by simp
    rw [happ]
    have hstep := ih (prior ++ [t]) htrace a
    by_cases hwin : a ≤ t ∧ t < a + W
    · have hlt := countWindow_lt_of_admits hadm hwin.1 hwin.2
      have hcw : countWindow a W (prior ++ [t]) = countWindow a W prior + 1 := by
        unfold countWindow
        rw [List.filter_append]
        simp [hwin.1, hwin.2]
      rw [hcw] at hstep
      have : max (countWindow a W prior + 1) R = R := by omega
      rw [this] at hstep
      omega
    · have hcw : countWindow a W (prior ++ [t]) = countWindow a W prior := by
        unfold countWindow
        rw [List.filter_append]
        rcases not_and_or.mp hwin with hna | hnw
        · simp [hna]
        · simp [hnw]
      rw [hcw] at hstep
      exact hstep

theorem gateTrace_window (R W : Nat) (trace : List Nat)
    (h : gateTrace R W [] trace = true) (a : Nat) :
    countWindow a W trace ≤ R := by
  have := gateTrace_window_rec R W trace [] h a
  simp only [List.nil_append] at this
  have hnil : countWindow a W [] = 0 := rfl
  rw [hnil] at this
  omega

/-- Claim C6 (the gate itself, `tower::limit::RateLimit`, is an external
dependency modelled from the spec; the budget 900 requests per 15-minute
window is the source's `Rate::new(900, Duration::from_secs(15 * 60))`):
across every window of length W, a valid gate dispatch trace contains at
most R dispatches. -/
theorem dispatches_bounded_by_budget (trace : List Nat)
    (h : gateTrace tweetsRate.1 tweetsRate.2 [] trace = true) :
    ∀ a, countWindow a tweetsRate.2 trace ≤ tweetsRate.1 :=
  gateTrace_window tweetsRate.1 tweetsRate.2 trace h

/-- Witness for C6 at the two-dispatch trace [0, 10] with the source's
900-per-900-seconds budget. -/
theorem dispatches_bounded_by_budget_witness :
    gateTrace tweetsRate.1 tweetsRate.2 [] [0, 10] = true ∧
    countWindow 0 tweetsRate.2 [0, 10] ≤ tweetsRate.1 :=
  ⟨by decide, dispatches_bounded_by_budget [0, 10] (by decide) 0⟩

/-! ## Atomic failure of the fetch (C7) -/

theorem drainChunks_error {E T : Type} :
    ∀ (results : List (Except E (List T))),
      (∃ e, Except.error e ∈ results) →
      ∃ e, ∀ acc : List T, drainChunks acc results = .error e := by
  intro results
  induction results with
  | nil =>
    intro h
    rcases h with ⟨e, he⟩
    cases he
  | cons r rest ih =>
    intro h
    match r with
    | .error e0 => exact ⟨e0, fun acc => rfl⟩
    | .ok chunk =>
      rcases h with ⟨e, he⟩
      rcases List.mem_cons.mp he with heq | hmem
      · cases heq
      · rcases ih ⟨e, hmem⟩ with ⟨e1, he1⟩
        exact ⟨e1, fun acc => he1 (acc ++ chunk)⟩

theorem drainChunks_ok {E T : Type} :
    ∀ (chunks : List (List T)) (acc : List T),
      drainChunks (E := E) acc (chunks.map Except.ok) = .ok (acc ++ chunks.flatten) := by
  intro chunks
  induction chunks with
  | nil =>
    intro acc
    simp [drainChunks]
  | cons c cs ih =>
    intro acc
    simp only [List.map_cons, drainChunks, ih, List.flatten_cons,
      List.append_assoc]

/-- Claim C7: if any batch result (in completion order) is an error, the
whole fetch returns that error — the chunks accumulated from other
batches are discarded (the result is the same for every accumulator
state, and carries no element data); if every batch succeeds, the fetch
returns the concatenation of all chunks. -/
theorem fetch_aborts_on_batch_error {E T : Type}
    (results : List (Except E (List T))) :
    ((∃ e, Except.error e ∈ results) →
      ∃ e, ∀ acc : List T, drainChunks acc results = .error e) ∧
    (∀ chunks : List (List T), results = chunks.map Except.ok →
      drainChunks [] results = .ok chunks.flatten) := by
  constructor
  · exact drainChunks_error results
  · intro chunks hre
    subst hre
    rw [drainChunks_ok chunks []]
    rfl

/-- Witness for C7: a failing middle batch aborts the drain for every
accumulator; an all-success run concatenates in completion order. -/
theorem fetch_aborts_on_batch_error_witness :
    (∃ e, ∀ acc : List Nat,
      drainChunks acc [Except.ok [1], Except.error "boom", Except.ok [2]] =
        .error e) ∧
    drainChunks ([] : List Nat)
        [(Except.ok [1] : Except String (List Nat)), Except.ok [2, 3]] =
      .ok [1, 2, 3] :=
  ⟨(fetch_aborts_on_batch_error [Except.ok [1], Except.error "boom",
      Except.ok [2]]).1 ⟨"boom", by simp⟩,
   (fetch_aborts_on_batch_error
      [(Except.ok [1] : Except String (List Nat)), Except.ok [2, 3]]).2
      [[1], [2, 3]] rfl⟩

end Ornithology
